import Mathlib

/- Shallow embedding of the string-cleaner library: the modules
   name_checker.py, name_converter.py and name_cleaner.py.  Python strings
   are modelled as Lean String values (lists of characters); character
   classification and case mapping follow the ASCII semantics that the
   ASCII regexes of the source and the identifier-shaped inputs of the
   claims exercise. -/

/- ASCII character classes used by the source regexes and by the Python
   string methods isupper, islower, isdigit, isalpha on ASCII input. -/

def isUpperA (c : Char) : Bool := decide (65 ≤ c.toNat) && decide (c.toNat ≤ 90)

def isLowerA (c : Char) : Bool := decide (97 ≤ c.toNat) && decide (c.toNat ≤ 122)

def isDigitA (c : Char) : Bool := decide (48 ≤ c.toNat) && decide (c.toNat ≤ 57)

def isAlphaA (c : Char) : Bool := isUpperA c || isLowerA c

def lowerOrDigit (c : Char) : Bool := isLowerA c || isDigitA c

def upperOrDigit (c : Char) : Bool := isUpperA c || isDigitA c

/- The regex character class A-z: ASCII codes 65..122, which also holds
   the six characters between the ranges A-Z and a-z. -/
def inAzB (c : Char) : Bool := decide (65 ≤ c.toNat) && decide (c.toNat ≤ 122)

/- Python whitespace class (ASCII part), the class the regex token for
   whitespace matches. -/
def pyIsSpace (c : Char) : Bool :=
  c == ' ' || c == '\t' || c == '\n' || c == '\x0d' || c == '\x0b' || c == '\x0c'

/- ASCII case mapping, as used by the Python lower and upper methods on
   ASCII letters. -/
def pyToLower (c : Char) : Char := if isUpperA c then Char.ofNat (c.toNat + 32) else c

def pyToUpper (c : Char) : Char := if isLowerA c then Char.ofNat (c.toNat - 32) else c

def pyLower (l : List Char) : List Char := l.map pyToLower

def pyUpper (l : List Char) : List Char := l.map pyToUpper

/- Python str.title: the first letter of every maximal run of cased
   characters is uppercased, the following letters of the run are
   lowercased; uncased characters separate runs. -/
def pyTitleGo : Bool → List Char → List Char
  | _, [] => []
  | prevCased, c :: rest =>
    if isAlphaA c then
      (if prevCased then pyToLower c else pyToUpper c) :: pyTitleGo true rest
    else
      c :: pyTitleGo false rest

def pyTitle (l : List Char) : List Char := pyTitleGo false l

/- Python str.istitle: uppercase letters only after uncased characters,
   lowercase letters only after cased ones, at least one cased character. -/
def pyIsTitleGo : Bool → Bool → List Char → Bool
  | _, cased, [] => cased
  | prev, cased, c :: rest =>
    if isUpperA c then (if prev then false else pyIsTitleGo true true rest)
    else if isLowerA c then (if prev then pyIsTitleGo true true rest else false)
    else pyIsTitleGo false cased rest

def pyIsTitle (l : List Char) : Bool := pyIsTitleGo false false l

/- Python str.isupper: no lowercase cased character and at least one
   cased character (on ASCII input: at least one uppercase letter). -/
def pyIsUpper (l : List Char) : Bool := l.any isUpperA && !(l.any isLowerA)

/- Python str.capitalize: first character uppercased, the rest lowercased. -/
def pyCapitalize : List Char → List Char
  | [] => []
  | c :: rest => pyToUpper c :: pyLower rest

/- Python str.strip: remove leading and trailing whitespace. -/
def pyStrip (l : List Char) : List Char :=
  ((l.dropWhile pyIsSpace).reverse.dropWhile pyIsSpace).reverse

/- Python str.split(sep) with an explicit one-character separator: keeps
   empty parts, always returns at least one part. -/
def splitOnChar (sep : Char) : List Char → List (List Char)
  | [] => [[]]
  | c :: rest =>
    match splitOnChar sep rest with
    | [] => [[]]
    | p :: ps => if c = sep then [] :: p :: ps else (c :: p) :: ps

/- Python sep.join(parts). -/
def pyJoin (sep : List Char) : List (List Char) → List Char
  | [] => []
  | w :: ws => w ++ ws.flatMap (fun x => sep ++ x)

/- Python str.split() with no separator: maximal nonempty runs of
   non-whitespace characters. -/
def pySplitWs : List Char → List (List Char)
  | [] => []
  | c :: rest =>
    if pyIsSpace c then pySplitWs rest
    else
      match rest with
      | [] => [[c]]
      | d :: _ =>
        if pyIsSpace d then [c] :: pySplitWs rest
        else
          match pySplitWs rest with
          | [] => [[c]]
          | w :: ws => (c :: w) :: ws

/- name_converter.py ------------------------------------------------- -/

/- camel_to_snake: for every character, an uppercase letter becomes an
   underscore followed by its lowercase form, all others are kept. -/
def camelToSnakeChar (c : Char) : List Char :=
  if isUpperA c then ['_', pyToLower c] else [c]

def camel_to_snake (name : String) : String :=
  ⟨name.toList.flatMap camelToSnakeChar⟩

/- snake_to_camel: split on underscores, lowercase the first part,
   titlecase the remaining parts, concatenate. -/
def snake_to_camel (name : String) : String :=
  match splitOnChar '_' name.toList with
  | [] => ""
  | p :: ps => ⟨pyLower p ++ (ps.map pyTitle).flatten⟩

/- snake_to_pascal: split on underscores, titlecase every part,
   concatenate. -/
def snake_to_pascal (name : String) : String :=
  ⟨((splitOnChar '_' name.toList).map pyTitle).flatten⟩

/- title_to_snake: split on spaces, lowercase every part, join with
   underscores. -/
def title_to_snake (name : String) : String :=
  ⟨pyJoin ['_'] ((splitOnChar ' ' name.toList).map pyLower)⟩

/- title_to_camel: split on spaces, lowercase the first part, titlecase
   the remaining parts, concatenate. -/
def title_to_camel (name : String) : String :=
  match splitOnChar ' ' name.toList with
  | [] => ""
  | p :: ps => ⟨pyLower p ++ (ps.map pyTitle).flatten⟩

/- title_to_pascal: split on spaces, titlecase every part, concatenate. -/
def title_to_pascal (name : String) : String :=
  ⟨((splitOnChar ' ' name.toList).map pyTitle).flatten⟩

example : camel_to_snake "myVariableName" = "my_variable_name" := by decide

example : snake_to_camel "my_variable_name" = "myVariableName" := by decide

example : snake_to_camel "myVariableName" = "myvariablename" := by decide

example : camel_to_snake "MyVar" = "_my_var" := by decide

example : snake_to_pascal "MyVar" = "Myvar" := by decide

/- detect_naming_convention: decidable characterizations of the seven
   full-string regex patterns of the source, in source order. -/

/- Full match of one or more lowercase-or-digit runs joined by single
   separators, at least one separator: splitting on the separator gives
   at least two parts, all nonempty and all lowercase-or-digit. -/
def sepLowerRuns (sep : Char) (l : List Char) : Bool :=
  let ps := splitOnChar sep l
  decide (2 ≤ ps.length) && ps.all (fun p => !p.isEmpty && p.all lowerOrDigit)

/- Full match of a leading lowercase-or-digit run followed by one or more
   groups of an uppercase letter and a lowercase-or-digit tail: the first
   character is lowercase-or-digit, every character is lowercase-or-digit
   or uppercase, and at least one uppercase letter occurs. -/
def isCamelPat : List Char → Bool
  | [] => false
  | c :: rest =>
    lowerOrDigit c && (c :: rest).all (fun d => lowerOrDigit d || isUpperA d)
      && (c :: rest).any isUpperA

/- Every uppercase letter is immediately followed by a lowercase-or-digit
   character (so no trailing uppercase and no two adjacent uppercase). -/
def uppersFollowed : List Char → Bool
  | [] => true
  | [c] => !isUpperA c
  | c1 :: c2 :: rest => (!isUpperA c1 || lowerOrDigit c2) && uppersFollowed (c2 :: rest)

/- Full match of one or more groups of an uppercase letter followed by a
   nonempty lowercase-or-digit run. -/
def isPascalPat : List Char → Bool
  | [] => false
  | c :: rest =>
    isUpperA c && (c :: rest).all (fun d => lowerOrDigit d || isUpperA d)
      && uppersFollowed (c :: rest)

/- Full match of uppercase-or-digit runs joined by single underscores,
   at least one underscore. -/
def isUpperSnakePat (l : List Char) : Bool :=
  let ps := splitOnChar '_' l
  decide (2 ≤ ps.length) && ps.all (fun p => !p.isEmpty && p.all upperOrDigit)

/- Full match of a nonempty uppercase-or-digit run. -/
def isUpperPlainPat (l : List Char) : Bool :=
  !l.isEmpty && l.all upperOrDigit

/- Full match of a nonempty lowercase-or-digit run. -/
def isLowerPlainPat (l : List Char) : Bool :=
  !l.isEmpty && l.all lowerOrDigit

namespace NameChecker

/- detect_naming_convention from name_checker.py: ordered first-match
   classification, with the title check as a self-equality test of the
   Python title method and the empty string as fallback. -/
def detect_naming_convention (text : String) : String :=
  let l := text.toList
  if sepLowerRuns '_' l then "snake_case"
  else if isCamelPat l then "camelCase"
  else if isPascalPat l then "PascalCase"
  else if sepLowerRuns '-' l then "kebab-case"
  else if pyTitle l = l then "Title Case"
  else if isUpperSnakePat l || isUpperPlainPat l then "UPPER_CASE"
  else if isLowerPlainPat l then "lowercase"
  else ""

end NameChecker

namespace NameCleaner

/- detect_naming_convention from name_cleaner.py: character for
   character the same definition as the copy in name_checker.py. -/
def detect_naming_convention (text : String) : String :=
  let l := text.toList
  if sepLowerRuns '_' l then "snake_case"
  else if isCamelPat l then "camelCase"
  else if isPascalPat l then "PascalCase"
  else if sepLowerRuns '-' l then "kebab-case"
  else if pyTitle l = l then "Title Case"
  else if isUpperSnakePat l || isUpperPlainPat l then "UPPER_CASE"
  else if isLowerPlainPat l then "lowercase"
  else ""

end NameCleaner

example : NameChecker.detect_naming_convention "my_var" = "snake_case" := by decide

example : NameChecker.detect_naming_convention "myVar" = "camelCase" := by decide

example : NameChecker.detect_naming_convention "MyVar" = "PascalCase" := by decide

example : NameChecker.detect_naming_convention "my-var" = "kebab-case" := by decide

example : NameChecker.detect_naming_convention "My Var" = "Title Case" := by decide

example : NameChecker.detect_naming_convention "MY_VAR" = "UPPER_CASE" := by decide

example : NameChecker.detect_naming_convention "myvar" = "lowercase" := by decide

example : NameChecker.detect_naming_convention "" = "Title Case" := by decide

example : NameChecker.detect_naming_convention "A" = "Title Case" := by decide

example : NameChecker.detect_naming_convention "a" = "lowercase" := by decide

example : NameChecker.detect_naming_convention "my var!" = "" := by decide

/- Anomaly predicates of name_checker.py ----------------------------- -/

/- Word characters for the regex word-boundary assertion. -/
def wordChar (c : Char) : Bool := isAlphaA c || isDigitA c || c == '_'

/- A word boundary holds at position p of l when exactly one of the
   character before p and the character at p is a word character
   (positions outside the list count as non-word). -/
def boundaryAt (l : List Char) (p : Nat) : Bool :=
  let prevW := match l.get? (p - 1) with
    | some c => decide (0 < p) && wordChar c
    | none => false
  let nextW := match l.get? p with
    | some c => wordChar c
    | none => false
  prevW != nextW

/- First acronym alternative: two or more consecutive uppercase letters. -/
def acrRun (s : List Char) : Bool := decide (2 ≤ s.length) && s.all isUpperA

/- Second acronym alternative: a parenthesized run of two or more
   uppercase letters. -/
def acrParen (s : List Char) : Bool :=
  decide (4 ≤ s.length) && (s.head? == some '(') && (s.getLast? == some ')')
    && ((s.drop 1).dropLast.all isUpperA)

/- Third acronym alternative: an uppercase letter followed by one or more
   groups of a dot and an uppercase letter. -/
def acrDotTail : List Char → Bool
  | [c] => isUpperA c
  | c :: '.' :: rest => isUpperA c && acrDotTail rest
  | _ => false

def acrDotted : List Char → Bool
  | c :: '.' :: rest => isUpperA c && acrDotTail rest
  | _ => false

/- contains_acronym: the regex search succeeds exactly when some
   substring matching one of the three alternatives starts and ends at a
   word boundary. -/
def contains_acronym (l : List Char) : Bool :=
  (List.range (l.length + 1)).any fun i =>
    (List.range (l.length + 1)).any fun j =>
      decide (i ≤ j) && boundaryAt l i && boundaryAt l j &&
        (let s := (l.drop i).take (j - i)
         acrRun s || acrParen s || acrDotted s)

/- contains_multiple_whitespaces: a run of two or more whitespace
   characters occurs, i.e. two adjacent whitespace characters exist. -/
def contains_multiple_whitespaces : List Char → Bool
  | c1 :: c2 :: rest =>
    (pyIsSpace c1 && pyIsSpace c2) || contains_multiple_whitespaces (c2 :: rest)
  | _ => false

/- contains_outer_whitespace: the string differs from its stripped form. -/
def contains_outer_whitespace (l : List Char) : Bool := !(pyStrip l == l)

/- contains_non_ascii: some character has a code point above 127. -/
def contains_non_ascii (l : List Char) : Bool := l.any fun c => decide (127 < c.toNat)

/- contains_number: some character is a digit. -/
def contains_number (l : List Char) : Bool := l.any isDigitA

/- The ASCII punctuation class of the source regexes: codes 33-47,
   58-64, 91-96 and 123-126. -/
def isPunctA (c : Char) : Bool :=
  (decide (33 ≤ c.toNat) && decide (c.toNat ≤ 47))
    || (decide (58 ≤ c.toNat) && decide (c.toNat ≤ 64))
    || (decide (91 ≤ c.toNat) && decide (c.toNat ≤ 96))
    || (decide (123 ≤ c.toNat) && decide (c.toNat ≤ 126))

/- contains_punctuation: some character is ASCII punctuation. -/
def contains_punctuation (l : List Char) : Bool := l.any isPunctA

/- contains_unicode_dashes: en dash, em dash or minus sign occurs. -/
def contains_unicode_dashes (l : List Char) : Bool :=
  l.contains '–' || l.contains '—' || l.contains '−'

/- contains_ampersand. -/
def contains_ampersand (l : List Char) : Bool := l.contains '&'

/- Removal of every character of a caller-supplied set, the model of
   substituting the character class built from the ignore string by the
   empty string (metacharacter-free ignore sets). -/
def removeCharSet (ignore : List Char) (l : List Char) : List Char :=
  l.filter fun c => !ignore.contains c

/- Literal non-overlapping leftmost removal of the pattern pat, the model
   of substituting a metacharacter-free separator pattern by the empty
   string.  The fuel argument starts at the length of the list and bounds
   the recursion; every step consumes at least one character, so the fuel
   never runs out. -/
def leadsWith : List Char → List Char → Bool
  | [], _ => true
  | _ :: _, [] => false
  | p :: ps, c :: cs => (p == c) && leadsWith ps cs

def removeLitF (pat : List Char) : Nat → List Char → List Char
  | 0, l => l
  | _ + 1, [] => []
  | fuel + 1, c :: rest =>
    if !pat.isEmpty && leadsWith pat (c :: rest) then
      removeLitF pat fuel (List.drop (pat.length - 1) rest)
    else
      c :: removeLitF pat fuel rest

def removeLit (pat l : List Char) : List Char := removeLitF pat l.length l

/- The character class of digits plus ASCII punctuation removed from the
   working copy before the alphabetic and alphanumeric checks. -/
def removePunctDigits (l : List Char) : List Char :=
  l.filter fun c => !(isDigitA c || isPunctA c)

/- check_name from name_checker.py: ordered predicate evaluation.  The
   two whitespace checks run on the original name; the ignore set is then
   stripped from the working copy, the remaining predicates run on the
   working copy, and the alphabetic and alphanumeric checks run on the
   working copy with the separator, digits and punctuation removed. -/
def checkNameIssues (name sep ignore : List Char) : List String :=
  let i1 := if contains_outer_whitespace name then ["outer whitespace"] else []
  let i2 := if contains_multiple_whitespaces name then ["multiple whitespaces"] else []
  let name1 := if !ignore.isEmpty then removeCharSet ignore name else name
  let i3 := if contains_number name1 then ["number"] else []
  let i4 := if contains_acronym name1 then ["acronym"] else []
  let i5 := if contains_non_ascii name1 then ["non-ASCII"] else []
  let i6 := if contains_unicode_dashes name1 then ["unicode dashes"] else []
  let i7 := if contains_ampersand name1 then ["ampersand"] else []
  let i8 := if contains_punctuation name1 then ["punctuation"] else []
  let cleaned := removePunctDigits (removeLit sep name1)
  let i9 := if cleaned.any (fun c => !isAlphaA c) then ["non-alphabetic"] else []
  let i10 := if cleaned.any (fun c => !(isAlphaA c || isDigitA c)) then ["non-alphanumeric"] else []
  i1 ++ i2 ++ i3 ++ i4 ++ i5 ++ i6 ++ i7 ++ i8 ++ i9 ++ i10

def check_name (name : String) (sep : String := " ") (ignore : String := "") : String :=
  let r := checkNameIssues name.toList sep.toList ignore.toList
  if r.isEmpty then "" else String.intercalate ", " r

/- The reading of check_name that claim C5 asserts: the ignore set is
   stripped only before the alphabetic and alphanumeric checks, and every
   other predicate sees the original name. -/
def checkNameIssuesClaimC5 (name sep ignore : List Char) : List String :=
  let i1 := if contains_outer_whitespace name then ["outer whitespace"] else []
  let i2 := if contains_multiple_whitespaces name then ["multiple whitespaces"] else []
  let i3 := if contains_number name then ["number"] else []
  let i4 := if contains_acronym name then ["acronym"] else []
  let i5 := if contains_non_ascii name then ["non-ASCII"] else []
  let i6 := if contains_unicode_dashes name then ["unicode dashes"] else []
  let i7 := if contains_ampersand name then ["ampersand"] else []
  let i8 := if contains_punctuation name then ["punctuation"] else []
  let name1 := if !ignore.isEmpty then removeCharSet ignore name else name
  let cleaned := removePunctDigits (removeLit sep name1)
  let i9 := if cleaned.any (fun c => !isAlphaA c) then ["non-alphabetic"] else []
  let i10 := if cleaned.any (fun c => !(isAlphaA c || isDigitA c)) then ["non-alphanumeric"] else []
  i1 ++ i2 ++ i3 ++ i4 ++ i5 ++ i6 ++ i7 ++ i8 ++ i9 ++ i10

def checkNameClaimC5 (name sep ignore : String) : String :=
  let r := checkNameIssuesClaimC5 name.toList sep.toList ignore.toList
  if r.isEmpty then "" else String.intercalate ", " r

example : contains_acronym "NASA launched".toList = true := by decide

example : contains_acronym "Napa valley".toList = false := by decide

example : contains_acronym "U.S.A".toList = true := by decide

example : contains_acronym "x(AB)y".toList = true := by decide

example : check_name "  John   Smith  " = "outer whitespace, multiple whitespaces" := by decide

example : check_name "John Smith" = "" := by decide

example : check_name "a&b" " " "&" = "" := by decide

example : checkNameClaimC5 "a&b" " " "&" = "ampersand, punctuation" := by decide

/- name_cleaner.py, the normalize pipeline --------------------------- -/

/- Substitution for the two-character patterns: when a character matched
   by p1 is directly followed by one matched by p2, a space is inserted
   between them and the scan resumes after the pair.  Used for the
   camel-case boundary (lowercase-or-digit before uppercase), the
   digit-before-lowercase boundary and the A-z-before-digit boundary. -/
def subPair2 (p1 p2 : Char → Bool) : List Char → List Char
  | c1 :: c2 :: rest =>
    if p1 c1 && p2 c2 then c1 :: ' ' :: c2 :: subPair2 p1 p2 rest
    else c1 :: subPair2 p1 p2 (c2 :: rest)
  | l => l

/- Substitution for the acronym pattern of two uppercase letters followed
   by a nonempty lowercase run: a space is inserted between the two
   uppercase letters.  The scan here resumes at the second uppercase
   letter; this yields the same result as resuming after the lowercase
   run, because no new match can begin at an uppercase letter that is
   directly followed by a lowercase one, nor inside a lowercase run. -/
def spaceAfterAcronyms : List Char → List Char
  | c1 :: c2 :: c3 :: rest =>
    if isUpperA c1 && isUpperA c2 && isLowerA c3 then
      c1 :: ' ' :: spaceAfterAcronyms (c2 :: c3 :: rest)
    else
      c1 :: spaceAfterAcronyms (c2 :: c3 :: rest)
  | l => l

/- The snake-case decomposition step: splitting on underscores and
   joining with single spaces replaces every underscore by a space. -/
def underscoreSplitJoin (l : List Char) : List Char :=
  pyJoin [' '] (splitOnChar '_' l)

/- Substitution of every character outside the regex class of A-z and
   digits by a space. -/
def specialsToSpace (l : List Char) : List Char :=
  l.map fun c => if inAzB c || isDigitA c then c else ' '

/- Substitution of every maximal whitespace run by one space. -/
def collapseWs : List Char → List Char
  | [] => []
  | c :: rest =>
    if pyIsSpace c then
      match rest with
      | [] => [' ']
      | d :: _ => if pyIsSpace d then collapseWs rest else ' ' :: collapseWs rest
    else c :: collapseWs rest

/- Stage 1 of normalize_notation: the six cleaning substitutions in
   source order, each with its trailing strip. -/
def nnStage1 (l : List Char) : List Char :=
  let a := subPair2 lowerOrDigit isUpperA l
  let b := spaceAfterAcronyms a
  let c := subPair2 isDigitA isLowerA b
  let d := subPair2 inAzB isDigitA c
  let e := underscoreSplitJoin d
  let f := pyStrip (specialsToSpace e)
  pyStrip (collapseWs f)

/- The heuristic applied by the default case policy: lowercase the whole
   string when it is entirely uppercase, otherwise lowercase exactly the
   whitespace-separated words that are in title shape. -/
def nnCaseDefault (l : List Char) : List Char :=
  if pyIsUpper l then pyLower l
  else pyJoin [' '] ((pySplitWs l).map fun w => if pyIsTitle w then pyLower w else w)

/- The case block of normalize_notation: a sequence of independent
   conditionals on the case value, as in the source. -/
def nnCase (cas : String) (l : List Char) : List Char :=
  let a := if cas = "default" then nnCaseDefault l else l
  let b := if cas = "lower" then pyLower a else a
  let c := if cas = "upper" then pyUpper b else b
  let d := if cas = "title" then pyTitle c else c
  if cas = "capitalize" then pyCapitalize d else d

/- Substitution of every space by the delimiter string. -/
def subSpace (delim : List Char) (l : List Char) : List Char :=
  l.flatMap fun c => if c == ' ' then delim else [c]

/- Lowercasing of the first character, the final camel fix-up. -/
def lowerFirst : List Char → List Char
  | [] => []
  | c :: rest => pyToLower c :: rest

/- The preset block of the normalizer: the value the case parameter holds
   after the if-elif chain on the notation parameter. -/
def presetCase (nota cas0 : String) : String :=
  if nota = "snake" then "lower"
  else if nota = "pascal" ∨ nota = "camel" then "title"
  else if nota = "title" then "title"
  else cas0

/- The preset block of the normalizer: the value the delimiter parameter
   holds after the same if-elif chain. -/
def presetDelim (nota : String) (delim0 : List Char) : List Char :=
  if nota = "snake" then ['_']
  else if nota = "pascal" ∨ nota = "camel" then []
  else if nota = "title" then [' ']
  else delim0

/- normalize_notation from name_cleaner.py over character lists.  The
   preset block overrides case and delimiter for the named presets; the
   case block is skipped when preserve_case holds; the delimiter replaces
   spaces when it is not the single space; the camel preset finally
   lowercases the first character. -/
def normalizeNotationL (l : List Char) (nota cas0 : String) (delim0 : List Char)
    (preserveCase : Bool) : List Char :=
  let name := nnStage1 l
  let name2 := if preserveCase then name else nnCase (presetCase nota cas0) name
  let name3 := if presetDelim nota delim0 ≠ [' '] then
    subSpace (presetDelim nota delim0) name2 else name2
  if nota = "camel" then lowerFirst name3 else name3

def normalize_notation (name : String) (nota : String := "default")
    (cas : String := "default") (delim : String := " ")
    (preserveCase : Bool := false) : String :=
  ⟨normalizeNotationL name.toList nota cas delim.toList preserveCase⟩

example : normalize_notation "HTTPServerName" "snake" = "http_server_name" := by decide

example : normalize_notation "my cool id" "pascal" = "MyCoolId" := by decide

example : normalize_notation "my cool id" "camel" = "myCoolId" := by decide

example : normalize_notation "[" = "[" := by decide

example : normalize_notation "!!" = "" := by decide

example : normalize_notation "ABC" "default" "weird" = "ABC" := by decide

example : normalize_notation "ABC" = "abc" := by decide

example : normalize_notation "myVariableName" = "my variable name" := by decide

/- Character toolkit lemmas ------------------------------------------ -/

theorem toNat_ofNat_lt {n : Nat} (h : n < 55296) : (Char.ofNat n).toNat = n := by
  unfold Char.ofNat
  rw [dif_pos (Or.inl h)]
  rfl

theorem char_eq_of_toNat_eq {c d : Char} (h : c.toNat = d.toNat) : c = d := by
  have hc := Char.ofNat_toNat c
  have hd := Char.ofNat_toNat d
  rw [← hc, ← hd, h]

theorem isUpperA_iff {c : Char} : isUpperA c = true ↔ 65 ≤ c.toNat ∧ c.toNat ≤ 90 := by
  simp [isUpperA]

theorem isLowerA_iff {c : Char} : isLowerA c = true ↔ 97 ≤ c.toNat ∧ c.toNat ≤ 122 := by
  simp [isLowerA]

theorem isDigitA_iff {c : Char} : isDigitA c = true ↔ 48 ≤ c.toNat ∧ c.toNat ≤ 57 := by
  simp [isDigitA]

theorem isLowerA_of_upper_false {c : Char} (h : isUpperA c = true) : isLowerA c = false := by
  rcases isUpperA_iff.mp h with ⟨_, h2⟩
  simp only [isLowerA]
  have : ¬(97 ≤ c.toNat) := by omega
  simp [this]

theorem isUpperA_of_lower_false {c : Char} (h : isLowerA c = true) : isUpperA c = false := by
  rcases isLowerA_iff.mp h with ⟨h1, _⟩
  simp only [isUpperA]
  have : ¬(c.toNat ≤ 90) := by omega
  simp [this]

theorem pyToLower_eq_of_not_upper {c : Char} (h : isUpperA c = false) : pyToLower c = c := by
  simp [pyToLower, h]

theorem pyToUpper_eq_of_not_lower {c : Char} (h : isLowerA c = false) : pyToUpper c = c := by
  simp [pyToUpper, h]

theorem pyToLower_toNat_of_upper {c : Char} (h : isUpperA c = true) :
    (pyToLower c).toNat = c.toNat + 32 := by
  rcases isUpperA_iff.mp h with ⟨_, h2⟩
  simp only [pyToLower, h, if_true]
  exact toNat_ofNat_lt (by omega)

theorem pyToUpper_toNat_of_lower {c : Char} (h : isLowerA c = true) :
    (pyToUpper c).toNat = c.toNat - 32 := by
  rcases isLowerA_iff.mp h with ⟨h1, h2⟩
  simp only [pyToUpper, h, if_true]
  exact toNat_ofNat_lt (by omega)

theorem isLowerA_pyToLower_of_upper {c : Char} (h : isUpperA c = true) :
    isLowerA (pyToLower c) = true := by
  rcases isUpperA_iff.mp h with ⟨h1, h2⟩
  rw [isLowerA_iff, pyToLower_toNat_of_upper h]
  omega

theorem pyToUpper_pyToLower_of_upper {c : Char} (h : isUpperA c = true) :
    pyToUpper (pyToLower c) = c := by
  rcases isUpperA_iff.mp h with ⟨h1, h2⟩
  apply char_eq_of_toNat_eq
  rw [pyToUpper_toNat_of_lower (isLowerA_pyToLower_of_upper h),
    pyToLower_toNat_of_upper h]
  omega

theorem pyToUpper_ne_of_lower {c : Char} (h : isLowerA c = true) : pyToUpper c ≠ c := by
  rcases isLowerA_iff.mp h with ⟨h1, _⟩
  intro he
  have := congrArg Char.toNat he
  rw [pyToUpper_toNat_of_lower h] at this
  omega

theorem ne_of_toNat_ne {c d : Char} (h : c.toNat ≠ d.toNat) : c ≠ d := by
  intro he
  exact h (congrArg Char.toNat he)

/- Claim theorems, first batch --------------------------------------- -/

/-- Claim C2: normalize_notation applied to the string HTTPServerName with
the snake preset returns http_server_name; the acronym boundary before a
following lowercase run is inserted before the last uppercase letter of the
run, then the tokens are lowercased and joined with underscores. -/
theorem c2_normalize_snake_httpservername :
    normalize_notation "HTTPServerName" "snake" = "http_server_name" := by decide

/-- Claim C6, counterexample: detect_naming_convention applied to the empty
string does not return the empty fallback label. -/
theorem c6_counterexample :
    NameChecker.detect_naming_convention "" ≠ "" := by decide

/-- Claim C6, amended: detect_naming_convention applied to the empty string
returns the label Title Case, because the title self-equality check, which
the empty string passes, is evaluated before the fallback. -/
theorem c6_amended_thm :
    NameChecker.detect_naming_convention "" = "Title Case" := by decide

/-- Claim C7, counterexample: a single uppercase letter is classified as
Title Case, not as UPPER_CASE. -/
theorem c7_counterexample :
    NameChecker.detect_naming_convention "A" = "Title Case" ∧
    NameChecker.detect_naming_convention "A" ≠ "UPPER_CASE" := by decide

/-- Claim C9: for every input string whose first character is an uppercase
letter, camel_to_snake returns a string beginning with an underscore
followed by the lowercased first letter; in particular camel_to_snake maps
MyVar to _my_var. -/
theorem c9_leading_upper_prepends_underscore :
    (∀ (c : Char) (rest : List Char), isUpperA c = true →
      (camel_to_snake ⟨c :: rest⟩).toList.take 2 = ['_', pyToLower c])
    ∧ camel_to_snake "MyVar" = "_my_var" := by
  constructor
  · intro c rest h
    show (((c :: rest).flatMap camelToSnakeChar).take 2) = _
    rw [List.flatMap_cons]
    simp [camelToSnakeChar, h]
  · decide

/-- Claim C9, witness at the input MVar shape: the first two characters of
the output are an underscore and the lowercased first letter. -/
theorem c9_witness :
    (camel_to_snake ⟨'M' :: "yVar".toList⟩).toList.take 2 = ['_', pyToLower 'M'] :=
  c9_leading_upper_prepends_underscore.1 'M' "yVar".toList (by decide)

/-- Claim C10: the detect_naming_convention function of name_checker.py and
the one of name_cleaner.py agree on every input string. -/
theorem c10_detect_copies_agree :
    ∀ s : String,
      NameChecker.detect_naming_convention s = NameCleaner.detect_naming_convention s :=
  fun _ => rfl

/- Helper lemmas for the converter claims ---------------------------- -/

theorem flatMap_camelToSnakeChar_id {l : List Char}
    (h : ∀ c ∈ l, isUpperA c = false) : l.flatMap camelToSnakeChar = l := by
  induction l with
  | nil => rfl
  | cons c rest ih =>
    rw [List.flatMap_cons, camelToSnakeChar, h c (List.mem_cons_self c rest),
      ih fun d hd => h d (List.mem_cons_of_mem c hd)]
    rfl

theorem splitOnChar_of_not_mem {sep : Char} {l : List Char} (h : sep ∉ l) :
    splitOnChar sep l = [l] := by
  induction l with
  | nil => rfl
  | cons c rest ih =>
    have hc : c ≠ sep := fun he => h (he ▸ List.mem_cons_self c rest)
    rw [splitOnChar, ih fun hm => h (List.mem_cons_of_mem c hm)]
    simp [hc]

theorem pyLower_eq_of_no_upper {l : List Char}
    (h : ∀ c ∈ l, isUpperA c = false) : pyLower l = l := by
  unfold pyLower
  induction l with
  | nil => rfl
  | cons c rest ih =>
    rw [List.map_cons, pyToLower_eq_of_not_upper (h c (List.mem_cons_self c rest)),
      ih fun d hd => h d (List.mem_cons_of_mem c hd)]

theorem isUpperA_false_of_snakeChar {c : Char}
    (h : (lowerOrDigit c || c == '_') = true) : isUpperA c = false := by
  simp only [lowerOrDigit, isLowerA, isDigitA, Bool.or_eq_true, Bool.and_eq_true,
    decide_eq_true_eq, beq_iff_eq] at h
  apply Bool.eq_false_iff.mpr
  intro hc
  rcases isUpperA_iff.mp hc with ⟨a1, a2⟩
  rcases h with (⟨h1, h2⟩ | ⟨h1, h2⟩) | rfl
  · omega
  · omega
  · simp at a2

/-- Claim C3, counterexample: the string myVariableName matches the
camelCase target shape, yet snake_to_camel lowercases it instead of
returning it unchanged. -/
theorem c3_counterexample :
    isCamelPat "myVariableName".toList = true ∧
    snake_to_camel "myVariableName" = "myvariablename" ∧
    snake_to_camel "myVariableName" ≠ "myVariableName" := by decide

/-- Claim C3, amended: the two converters into snake case, camel_to_snake
and title_to_snake, return every input made only of lowercase letters,
digits and underscores (so in particular every snake_case input) unchanged;
the converters into camel, pascal and title targets are not identities on
target-shaped inputs carrying an uppercase letter: snake_to_camel and
title_to_camel lowercase such inputs wholesale and snake_to_pascal and
title_to_pascal lowercase every capital after the first letter of a word. -/
theorem c3_amended_thm :
    (∀ s : String, s.toList.all (fun c => lowerOrDigit c || c == '_') = true →
      camel_to_snake s = s ∧ title_to_snake s = s)
    ∧ snake_to_camel "myVariableName" = "myvariablename"
    ∧ snake_to_pascal "MyVar" = "Myvar"
    ∧ title_to_camel "myVar" = "myvar"
    ∧ title_to_pascal "MyVar" = "Myvar" := by
  refine ⟨?_, by decide, by decide, by decide, by decide⟩
  intro s h
  obtain ⟨data⟩ := s
  have hall : ∀ c ∈ data, (lowerOrDigit c || c == '_') = true := by
    intro c hc
    exact List.all_eq_true.mp h c hc
  have hup : ∀ c ∈ data, isUpperA c = false :=
    fun c hc => isUpperA_false_of_snakeChar (hall c hc)
  constructor
  · show String.mk (data.flatMap camelToSnakeChar) = String.mk data
    rw [flatMap_camelToSnakeChar_id hup]
  · have hsp : ' ' ∉ data := by
      intro hm
      have := hall ' ' hm
      simp [lowerOrDigit, isLowerA, isDigitA] at this
    show String.mk (pyJoin ['_'] ((splitOnChar ' ' data).map pyLower)) = String.mk data
    rw [splitOnChar_of_not_mem hsp]
    simp only [List.map_cons, List.map_nil, pyJoin, List.flatMap_nil, List.append_nil]
    rw [pyLower_eq_of_no_upper hup]

/-- Claim C3, witness: the amended identity applied to the snake_case
input my_var. -/
theorem c3_witness :
    camel_to_snake "my_var" = "my_var" ∧ title_to_snake "my_var" = "my_var" :=
  c3_amended_thm.1 "my_var" (by decide)

/-- Claim C8, counterexample: with the unrecognized case value weird, the
case stage is skipped entirely, so the all-uppercase input ABC is returned
unchanged, while the default case value lowercases it; the unrecognized
value therefore does not behave like default. -/
theorem c8_counterexample :
    normalize_notation "ABC" "default" "weird" = "ABC" ∧
    normalize_notation "ABC" "default" "default" = "abc" ∧
    normalize_notation "ABC" "default" "weird" ≠
      normalize_notation "ABC" "default" "default" := by decide

/-- Claim C8, amended: normalize_notation never raises for any
configuration value; a notation value outside the enumerated set behaves
exactly like the notation value default, but a case value outside the
enumerated set skips the whole case block, which is the behavior of
preserve_case and not the behavior of the case value default. -/
theorem c8_amended_thm :
    (∀ (name nota cas delim : String) (pc : Bool),
      nota ∉ ["default", "snake", "camel", "pascal", "title"] →
      normalize_notation name nota cas delim pc =
        normalize_notation name "default" cas delim pc)
    ∧ (∀ (name cas delim : String),
      cas ∉ ["default", "lower", "upper", "title", "capitalize"] →
      normalize_notation name "default" cas delim false =
        normalize_notation name "default" cas delim true) := by
  constructor
  · intro name nota cas delim pc h
    have h1 : nota ≠ "snake" := fun he => h (by rw [he]; decide)
    have h2 : nota ≠ "pascal" := fun he => h (by rw [he]; decide)
    have h3 : nota ≠ "camel" := fun he => h (by rw [he]; decide)
    have h4 : nota ≠ "title" := fun he => h (by rw [he]; decide)
    simp [ normalize_notation, normalizeNotationL, presetCase, presetDelim,
      h1, h2, h3, h4]
  · intro name cas delim h
    have h1 : cas ≠ "default" := fun he => h (by rw [he]; decide)
    have h2 : cas ≠ "lower" := fun he => h (by rw [he]; decide)
    have h3 : cas ≠ "upper" := fun he => h (by rw [he]; decide)
    have h4 : cas ≠ "title" := fun he => h (by rw [he]; decide)
    have h5 : cas ≠ "capitalize" := fun he => h (by rw [he]; decide)
    simp [ normalize_notation, normalizeNotationL, nnCase, presetCase, presetDelim,
      h1, h2, h3, h4, h5]

/-- Claim C8, witness: the unrecognized notation value weird2 behaves like
the default notation on a concrete input. -/
theorem c8_witness :
    normalize_notation "aB" "weird2" "default" " " false =
      normalize_notation "aB" "default" "default" " " false :=
  c8_amended_thm.1 "aB" "weird2" "default" " " false (by decide)

/- Claim C5 ----------------------------------------------------------- -/

/- The amended reading of check_name for a nonempty ignore set: the
   ignore characters are stripped from the working copy before every
   predicate except the two whitespace checks, which alone see the
   original name. -/
def checkNameIssuesAmendedC5 (name sep ignore : List Char) : List String :=
  let stripped := removeCharSet ignore name
  let i1 := if contains_outer_whitespace name then ["outer whitespace"] else []
  let i2 := if contains_multiple_whitespaces name then ["multiple whitespaces"] else []
  let i3 := if contains_number stripped then ["number"] else []
  let i4 := if contains_acronym stripped then ["acronym"] else []
  let i5 := if contains_non_ascii stripped then ["non-ASCII"] else []
  let i6 := if contains_unicode_dashes stripped then ["unicode dashes"] else []
  let i7 := if contains_ampersand stripped then ["ampersand"] else []
  let i8 := if contains_punctuation stripped then ["punctuation"] else []
  let cleaned := removePunctDigits (removeLit sep stripped)
  let i9 := if cleaned.any (fun c => !isAlphaA c) then ["non-alphabetic"] else []
  let i10 := if cleaned.any (fun c => !(isAlphaA c || isDigitA c)) then ["non-alphanumeric"] else []
  i1 ++ i2 ++ i3 ++ i4 ++ i5 ++ i6 ++ i7 ++ i8 ++ i9 ++ i10

/-- Claim C5, counterexample: with the name a&b and the ignore set with
the single ampersand character, check_name reports nothing, although the
reading of the claim, where the ampersand and punctuation predicates see
the original unstripped name, would report both. -/
theorem c5_counterexample :
    check_name "a&b" " " "&" = "" ∧
    checkNameClaimC5 "a&b" " " "&" = "ampersand, punctuation" ∧
    check_name "a&b" " " "&" ≠ checkNameClaimC5 "a&b" " " "&" := by decide

/-- Claim C5, amended: for every name and every nonempty ignore set, the
caller-supplied ignore characters are stripped from the working copy
before every predicate except the two whitespace checks; only the outer
whitespace and multiple whitespaces predicates are evaluated on the
original, unstripped name. -/
theorem c5_amended_thm :
    ∀ (name sep ignore : String), ignore ≠ "" →
      checkNameIssues name.toList sep.toList ignore.toList =
        checkNameIssuesAmendedC5 name.toList sep.toList ignore.toList := by
  intro name sep ignore h
  have hne : ignore.toList.isEmpty = false := by
    obtain ⟨data⟩ := ignore
    cases data with
    | nil => exact absurd rfl h
    | cons c rest => rfl
  simp only [checkNameIssues, checkNameIssuesAmendedC5, hne, Bool.not_false, if_true]

/-- Claim C5, witness: the amended statement applied to the name a&b with
the ampersand ignore set. -/
theorem c5_witness :
    checkNameIssues "a&b".toList " ".toList "&".toList =
      checkNameIssuesAmendedC5 "a&b".toList " ".toList "&".toList :=
  c5_amended_thm "a&b" " " "&" (by decide)

/- Claim C7 ----------------------------------------------------------- -/

theorem not_mem_single {sep c : Char} (h : c ≠ sep) : sep ∉ [c] := by
  intro hm
  rcases List.mem_singleton.mp hm with rfl
  exact h rfl

theorem sepLowerRuns_single {sep c : Char} (h : c ≠ sep) :
    sepLowerRuns sep [c] = false := by
  unfold sepLowerRuns
  rw [splitOnChar_of_not_mem (not_mem_single h)]
  rfl

theorem isUpperSnakePat_single {c : Char} (h : c ≠ '_') :
    isUpperSnakePat [c] = false := by
  unfold isUpperSnakePat
  rw [splitOnChar_of_not_mem (not_mem_single h)]
  rfl

/-- Claim C7, amended: detect_naming_convention classifies every
single-character string holding one uppercase letter as Title Case, since
the title self-equality check precedes the UPPER_CASE check and a single
uppercase letter is title-stable, and classifies every single-character
string holding one lowercase letter as lowercase. -/
theorem c7_amended_thm :
    ∀ c : Char,
      (isUpperA c = true → NameChecker.detect_naming_convention ⟨[c]⟩ = "Title Case")
      ∧ (isLowerA c = true → NameChecker.detect_naming_convention ⟨[c]⟩ = "lowercase") := by
  intro c
  constructor
  · intro h
    rcases isUpperA_iff.mp h with ⟨h1, h2⟩
    have hu : c ≠ '_' := ne_of_toNat_ne (by rw [show ('_').toNat = 95 from rfl]; omega)
    have hk : c ≠ '-' := ne_of_toNat_ne (by rw [show ('-').toNat = 45 from rfl]; omega)
    have hlow : isLowerA c = false := isLowerA_of_upper_false h
    have hdig : isDigitA c = false := by
      apply Bool.eq_false_iff.mpr
      intro hd
      rcases isDigitA_iff.mp hd with ⟨d1, d2⟩
      omega
    have htitle : pyTitle [c] = [c] := by
      simp [pyTitle, pyTitleGo, isAlphaA, h, pyToUpper_eq_of_not_lower hlow]
    show NameChecker.detect_naming_convention ⟨[c]⟩ = "Title Case"
    simp [NameChecker.detect_naming_convention, sepLowerRuns_single hu,
      sepLowerRuns_single hk, isCamelPat, isPascalPat, uppersFollowed,
      lowerOrDigit, hlow, hdig, h, htitle]
  · intro h
    have h65 : 97 ≤ c.toNat ∧ c.toNat ≤ 122 := isLowerA_iff.mp h
    have hu : c ≠ '_' := ne_of_toNat_ne (by rw [show ('_').toNat = 95 from rfl]; omega)
    have hk : c ≠ '-' := ne_of_toNat_ne (by rw [show ('-').toNat = 45 from rfl]; omega)
    have hup : isUpperA c = false := isUpperA_of_lower_false h
    have hdig : isDigitA c = false := by
      apply Bool.eq_false_iff.mpr
      intro hd
      rcases isDigitA_iff.mp hd with ⟨d1, d2⟩
      omega
    have htitle : pyTitle [c] ≠ [c] := by
      simp only [pyTitle, pyTitleGo, isAlphaA, h, hup, Bool.false_or, if_true, if_false]
      intro he
      exact pyToUpper_ne_of_lower h (List.cons.inj he).1
    show NameChecker.detect_naming_convention ⟨[c]⟩ = "lowercase"
    simp [NameChecker.detect_naming_convention, sepLowerRuns_single hu,
      sepLowerRuns_single hk, isCamelPat, isPascalPat, isUpperSnakePat_single hu,
      isUpperPlainPat, isLowerPlainPat, upperOrDigit, lowerOrDigit, hup, hdig, h,
      htitle]

/-- Claim C7, witness: the amended classification evaluated at the letters
A and a. -/
theorem c7_witness :
    NameChecker.detect_naming_convention ⟨['A']⟩ = "Title Case" ∧
    NameChecker.detect_naming_convention ⟨['a']⟩ = "lowercase" :=
  ⟨(c7_amended_thm 'A').1 (by decide), (c7_amended_thm 'a').2 (by decide)⟩

/- Claim C4 ----------------------------------------------------------- -/

/- A camelCase identifier of purely alphabetic words: a lowercase run w
   followed by capitalized runs, each an uppercase letter with a lowercase
   tail. -/
def mkCamel (w : List Char) (ws : List (Char × List Char)) : List Char :=
  w ++ (ws.map fun p => p.1 :: p.2).flatten

theorem splitOnChar_ne_nil {sep : Char} (l : List Char) : splitOnChar sep l ≠ [] := by
  cases l with
  | nil => simp [splitOnChar]
  | cons c rest =>
    rw [splitOnChar]
    rcases hr : splitOnChar sep rest with _ | ⟨p, ps⟩
    · simp
    · by_cases hc : c = sep <;> simp [hc]

theorem splitOnChar_append_cons {sep : Char} {w rest : List Char} (h : sep ∉ w) :
    splitOnChar sep (w ++ sep :: rest) = w :: splitOnChar sep rest := by
  induction w with
  | nil =>
    rw [List.nil_append, splitOnChar]
    rcases hr : splitOnChar sep rest with _ | ⟨p, ps⟩
    · exact absurd hr (splitOnChar_ne_nil rest)
    · simp
  | cons c w ih =>
    have hc : c ≠ sep := fun he => h (he ▸ List.mem_cons_self c w)
    have hw : sep ∉ w := fun hm => h (List.mem_cons_of_mem c hm)
    rw [List.cons_append, splitOnChar, ih hw]
    simp [hc]

theorem splitOnChar_parts {sep : Char} :
    ∀ (parts : List (List Char)) (w : List Char), sep ∉ w →
      (∀ x ∈ parts, sep ∉ x) →
      splitOnChar sep (w ++ (parts.map (sep :: ·)).flatten) = w :: parts := by
  intro parts
  induction parts with
  | nil =>
    intro w hw _
    rw [List.map_nil, List.flatten_nil, List.append_nil, splitOnChar_of_not_mem hw]
  | cons x parts ih =>
    intro w hw hparts
    rw [List.map_cons, List.flatten_cons, List.cons_append,
      splitOnChar_append_cons hw,
      ih x (hparts x (List.mem_cons_self x parts))
        fun y hy => hparts y (List.mem_cons_of_mem x hy)]

theorem pyTitleGo_true_of_lower {t : List Char} (h : t.all isLowerA = true) :
    pyTitleGo true t = t := by
  induction t with
  | nil => rfl
  | cons c rest ih =>
    have h2 := h
    rw [List.all_cons, Bool.and_eq_true] at h2
    rcases h2 with ⟨hc, hrest⟩
    rw [pyTitleGo]
    simp only [isAlphaA, hc, Bool.or_true, if_true,
      pyToLower_eq_of_not_upper (isUpperA_of_lower_false hc), ih hrest]

theorem pyTitle_chunk {u : Char} {t : List Char} (hu : isUpperA u = true)
    (ht : t.all isLowerA = true) : pyTitle (pyToLower u :: t) = u :: t := by
  have hl : isLowerA (pyToLower u) = true := isLowerA_pyToLower_of_upper hu
  rw [pyTitle, pyTitleGo]
  simp only [isAlphaA, hl, Bool.or_true, if_true, Bool.false_eq_true, if_false,
    pyToUpper_pyToLower_of_upper hu, pyTitleGo_true_of_lower ht]

theorem isUpperA_false_of_lower {l : List Char} (h : l.all isLowerA = true) :
    ∀ c ∈ l, isUpperA c = false := by
  intro c hc
  exact isUpperA_of_lower_false (List.all_eq_true.mp h c hc)

theorem flatMap_camel_chunks {ws : List (Char × List Char)}
    (h : ∀ p ∈ ws, isUpperA p.1 = true ∧ p.2.all isLowerA = true) :
    ((ws.map fun p => p.1 :: p.2).flatten).flatMap camelToSnakeChar =
      (ws.map fun p => '_' :: pyToLower p.1 :: p.2).flatten := by
  induction ws with
  | nil => rfl
  | cons p ws ih =>
    rcases h p (List.mem_cons_self p ws) with ⟨hp1, hp2⟩
    rw [List.map_cons, List.flatten_cons, List.flatMap_append, List.flatMap_cons,
      camelToSnakeChar, hp1, if_pos rfl,
      flatMap_camelToSnakeChar_id (isUpperA_false_of_lower hp2),
      ih fun q hq => h q (List.mem_cons_of_mem p hq), List.map_cons,
      List.flatten_cons]
    rfl

theorem underscore_not_mem_chunk {u : Char} {t : List Char} (hu : isUpperA u = true)
    (ht : t.all isLowerA = true) : '_' ∉ (pyToLower u :: t) := by
  intro hm
  rcases List.mem_cons.mp hm with he | hm2
  · have := isLowerA_iff.mp (isLowerA_pyToLower_of_upper hu)
    rw [← he] at this
    simp [show ('_').toNat = 95 from rfl] at this
  · have := isLowerA_iff.mp (List.all_eq_true.mp ht '_' hm2)
    simp [show ('_').toNat = 95 from rfl] at this

theorem underscore_not_mem_lower {w : List Char} (hw : w.all isLowerA = true) :
    '_' ∉ w := by
  intro hm
  have := isLowerA_iff.mp (List.all_eq_true.mp hw '_' hm)
  simp [show ('_').toNat = 95 from rfl] at this

/-- Claim C4: for every camelCase identifier made of purely alphabetic
words, a nonempty lowercase run followed by capitalized alphabetic runs,
snake_to_camel undoes camel_to_snake; in particular camel_to_snake maps
myVariableName to my_variable_name and snake_to_camel maps it back. -/
theorem c4_roundtrip :
    (∀ (w : List Char) (ws : List (Char × List Char)),
      w ≠ [] → w.all isLowerA = true →
      (∀ p ∈ ws, isUpperA p.1 = true ∧ p.2.all isLowerA = true) →
      snake_to_camel (camel_to_snake ⟨mkCamel w ws⟩) = ⟨mkCamel w ws⟩)
    ∧ camel_to_snake "myVariableName" = "my_variable_name"
    ∧ snake_to_camel "my_variable_name" = "myVariableName" := by
  refine ⟨?_, by decide, by decide⟩
  intro w ws _ hw hws
  have hwup : ∀ c ∈ w, isUpperA c = false := isUpperA_false_of_lower hw
  have hlist : (camel_to_snake ⟨mkCamel w ws⟩).toList =
      w ++ (((ws.map fun p => pyToLower p.1 :: p.2).map ('_' :: ·)).flatten) := by
    show (mkCamel w ws).flatMap camelToSnakeChar = _
    rw [mkCamel, List.flatMap_append, flatMap_camelToSnakeChar_id hwup,
      flatMap_camel_chunks hws, List.map_map]
    rfl
  have hsplit : splitOnChar '_' (camel_to_snake ⟨mkCamel w ws⟩).toList =
      w :: (ws.map fun p => pyToLower p.1 :: p.2) := by
    rw [hlist]
    apply splitOnChar_parts _ w (underscore_not_mem_lower hw)
    intro x hx
    rcases List.mem_map.mp hx with ⟨p, hp, he⟩
    rcases hws p hp with ⟨hp1, hp2⟩
    rw [← he]
    exact underscore_not_mem_chunk hp1 hp2
  rw [snake_to_camel, hsplit]
  show String.mk
      (pyLower w ++ (List.map pyTitle (ws.map fun p => pyToLower p.1 :: p.2)).flatten) =
    String.mk (mkCamel w ws)
  rw [pyLower_eq_of_no_upper hwup, List.map_map]
  have hmap : (ws.map (pyTitle ∘ fun p => pyToLower p.1 :: p.2)) =
      ws.map fun p => p.1 :: p.2 := by
    apply List.map_congr_left
    intro p hp
    rcases hws p hp with ⟨hp1, hp2⟩
    exact pyTitle_chunk hp1 hp2
  rw [hmap]
  rfl

/-- Claim C4, witness: the round trip applied to the decomposition of
myVariableName into the lowercase run my and the runs Variable and Name. -/
theorem c4_witness :
    snake_to_camel (camel_to_snake
        ⟨mkCamel "my".toList [('V', "ariable".toList), ('N', "ame".toList)]⟩) =
      ⟨mkCamel "my".toList [('V', "ariable".toList), ('N', "ame".toList)]⟩ :=
  c4_roundtrip.1 "my".toList [('V', "ariable".toList), ('N', "ame".toList)]
    (by decide) (by decide) (by decide)

/- Claim C1: stage lemmas --------------------------------------------- -/

/- Characters that can appear in the output of the default configuration:
   the regex class A-z without the underscore, digits and the space. -/
def pOKc (c : Char) : Bool := (inAzB c && !(c == '_')) || isDigitA c || c == ' '

theorem subPair2_cons2 (p1 p2 : Char → Bool) (c1 c2 : Char) (rest : List Char) :
    subPair2 p1 p2 (c1 :: c2 :: rest) =
      if p1 c1 && p2 c2 then c1 :: ' ' :: c2 :: subPair2 p1 p2 rest
      else c1 :: subPair2 p1 p2 (c2 :: rest) := rfl

theorem spaceAfterAcronyms_cons3 (c1 c2 c3 : Char) (rest : List Char) :
    spaceAfterAcronyms (c1 :: c2 :: c3 :: rest) =
      if isUpperA c1 && isUpperA c2 && isLowerA c3 then
        c1 :: ' ' :: spaceAfterAcronyms (c2 :: c3 :: rest)
      else c1 :: spaceAfterAcronyms (c2 :: c3 :: rest) := rfl

theorem collapseWs_cons2 (c d : Char) (rest : List Char) :
    collapseWs (c :: d :: rest) =
      if pyIsSpace c then
        (if pyIsSpace d then collapseWs (d :: rest) else ' ' :: collapseWs (d :: rest))
      else c :: collapseWs (d :: rest) := rfl

theorem splitOnChar_cons (sep c : Char) (rest : List Char) :
    splitOnChar sep (c :: rest) =
      match splitOnChar sep rest with
      | [] => [[]]
      | p :: ps => if c = sep then [] :: p :: ps else (c :: p) :: ps := rfl

theorem pySplitWs_single (c : Char) :
    pySplitWs [c] = if pyIsSpace c then [] else [[c]] := rfl

theorem pySplitWs_cons2 (c d : Char) (rest : List Char) :
    pySplitWs (c :: d :: rest) =
      if pyIsSpace c then pySplitWs (d :: rest)
      else if pyIsSpace d then [c] :: pySplitWs (d :: rest)
      else
        match pySplitWs (d :: rest) with
        | [] => [[c]]
        | w :: ws => (c :: w) :: ws := rfl

theorem mem_subPair2 (p1 p2 : Char → Bool) :
    ∀ (l : List Char) (a : Char), a ∈ subPair2 p1 p2 l → a ∈ l ∨ a = ' '
  | [], _, h => .inl h
  | [_], _, h => .inl h
  | c1 :: c2 :: rest, a, h => by
    rw [subPair2_cons2] at h
    by_cases hc : (p1 c1 && p2 c2) = true
    · rw [if_pos hc] at h
      simp only [List.mem_cons] at h
      rcases h with rfl | rfl | rfl | h4
      · exact .inl (by simp)
      · exact .inr rfl
      · exact .inl (by simp)
      · rcases mem_subPair2 p1 p2 rest a h4 with h5 | h5
        · exact .inl (by simp [h5])
        · exact .inr h5
    · rw [if_neg hc] at h
      simp only [List.mem_cons] at h
      rcases h with rfl | h4
      · exact .inl (by simp)
      · rcases mem_subPair2 p1 p2 (c2 :: rest) a h4 with h5 | h5
        · exact .inl (List.mem_cons_of_mem c1 h5)
        · exact .inr h5

theorem mem_spaceAfterAcronyms :
    ∀ (l : List Char) (a : Char), a ∈ spaceAfterAcronyms l → a ∈ l ∨ a = ' '
  | [], _, h => .inl h
  | [_], _, h => .inl h
  | [_, _], _, h => .inl h
  | c1 :: c2 :: c3 :: rest, a, h => by
    rw [spaceAfterAcronyms_cons3] at h
    by_cases hc : (isUpperA c1 && isUpperA c2 && isLowerA c3) = true
    · rw [if_pos hc] at h
      simp only [List.mem_cons] at h
      rcases h with rfl | rfl | h4
      · exact .inl (by simp)
      · exact .inr rfl
      · rcases mem_spaceAfterAcronyms (c2 :: c3 :: rest) a h4 with h5 | h5
        · exact .inl (List.mem_cons_of_mem c1 h5)
        · exact .inr h5
    · rw [if_neg hc] at h
      simp only [List.mem_cons] at h
      rcases h with rfl | h4
      · exact .inl (by simp)
      · rcases mem_spaceAfterAcronyms (c2 :: c3 :: rest) a h4 with h5 | h5
        · exact .inl (List.mem_cons_of_mem c1 h5)
        · exact .inr h5

theorem mem_collapseWs :
    ∀ (l : List Char) (a : Char), a ∈ collapseWs l → a ∈ l ∨ a = ' '
  | [], _, h => .inl h
  | [c], a, h => by
    unfold collapseWs at h
    by_cases hc : pyIsSpace c = true
    · rw [if_pos hc] at h
      exact .inr (List.mem_singleton.mp h)
    · rw [if_neg hc] at h
      exact .inl h
  | c :: d :: rest, a, h => by
    rw [collapseWs_cons2] at h
    by_cases hc : pyIsSpace c = true
    · rw [if_pos hc] at h
      by_cases hd : pyIsSpace d = true
      · rw [if_pos hd] at h
        rcases mem_collapseWs (d :: rest) a h with h5 | h5
        · exact .inl (List.mem_cons_of_mem c h5)
        · exact .inr h5
      · rw [if_neg hd] at h
        rcases List.mem_cons.mp h with rfl | h4
        · exact .inr rfl
        · rcases mem_collapseWs (d :: rest) a h4 with h5 | h5
          · exact .inl (List.mem_cons_of_mem c h5)
          · exact .inr h5
    · rw [if_neg hc] at h
      rcases List.mem_cons.mp h with rfl | h4
      · exact .inl (by simp)
      · rcases mem_collapseWs (d :: rest) a h4 with h5 | h5
        · exact .inl (List.mem_cons_of_mem c h5)
        · exact .inr h5

theorem underscoreSplitJoin_eq_map (l : List Char) :
    underscoreSplitJoin l = l.map fun c => if c == '_' then ' ' else c := by
  induction l with
  | nil => rfl
  | cons c rest ih =>
    rcases hsp : splitOnChar '_' rest with _ | ⟨p, ps⟩
    · exact absurd hsp (splitOnChar_ne_nil rest)
    · have hjoin : underscoreSplitJoin rest = p ++ ps.flatMap (fun x => [' '] ++ x) := by
        rw [underscoreSplitJoin, hsp]
        rfl
      rw [underscoreSplitJoin, splitOnChar_cons, hsp]
      show pyJoin [' '] (if c = '_' then [] :: p :: ps else (c :: p) :: ps) = _
      by_cases hc : c = '_'
      · rw [if_pos hc]
        show [] ++ (p :: ps).flatMap (fun x => [' '] ++ x) = _
        rw [List.nil_append, List.flatMap_cons, List.map_cons]
        rw [← ih, hjoin]
        simp [hc]
      · rw [if_neg hc]
        show (c :: p) ++ ps.flatMap (fun x => [' '] ++ x) = _
        rw [List.cons_append, List.map_cons, ← ih, hjoin]
        simp [hc]

theorem usj_no_underscore {l : List Char} {a : Char}
    (h : a ∈ underscoreSplitJoin l) : a ≠ '_' := by
  rw [underscoreSplitJoin_eq_map] at h
  rcases List.mem_map.mp h with ⟨c, _, he⟩
  intro hau
  rw [hau] at he
  by_cases hc : c = '_'
  · rw [if_pos (by simp [hc])] at he
    exact absurd he (by decide)
  · rw [if_neg (by simp [hc])] at he
    exact hc he

theorem mem_pyStrip {l : List Char} {a : Char} (h : a ∈ pyStrip l) : a ∈ l := by
  unfold pyStrip at h
  rw [List.mem_reverse] at h
  have h2 := (List.dropWhile_sublist pyIsSpace).subset h
  rw [List.mem_reverse] at h2
  exact (List.dropWhile_sublist pyIsSpace).subset h2

theorem mem_pySplitWs :
    ∀ (l : List Char) (w : List Char), w ∈ pySplitWs l → ∀ a ∈ w, a ∈ l
  | [], _, hw, _, _ => absurd hw (by simp [pySplitWs])
  | [c], w, hw, a, ha => by
    rw [pySplitWs_single] at hw
    by_cases hc : pyIsSpace c = true
    · rw [if_pos hc] at hw
      exact absurd hw (by simp)
    · rw [if_neg hc] at hw
      rcases List.mem_singleton.mp hw with rfl
      rcases List.mem_singleton.mp ha with rfl
      simp
  | c :: d :: rest2, w, hw, a, ha => by
    rw [pySplitWs_cons2] at hw
    by_cases hc : pyIsSpace c = true
    · rw [if_pos hc] at hw
      exact List.mem_cons_of_mem c (mem_pySplitWs (d :: rest2) w hw a ha)
    · rw [if_neg hc] at hw
      by_cases hd : pyIsSpace d = true
      · rw [if_pos hd] at hw
        rcases List.mem_cons.mp hw with rfl | hw2
        · rcases List.mem_singleton.mp ha with rfl
          simp
        · exact List.mem_cons_of_mem c (mem_pySplitWs (d :: rest2) w hw2 a ha)
      · rw [if_neg hd] at hw
        rcases hsp : pySplitWs (d :: rest2) with _ | ⟨w0, ws0⟩
        · rw [hsp] at hw
          rcases List.mem_singleton.mp hw with rfl
          rcases List.mem_singleton.mp ha with rfl
          simp
        · rw [hsp] at hw
          rcases List.mem_cons.mp hw with rfl | hw2
          · rcases List.mem_cons.mp ha with rfl | ha2
            · simp
            · have hm : w0 ∈ pySplitWs (d :: rest2) := by rw [hsp]; simp
              exact List.mem_cons_of_mem c
                (mem_pySplitWs (d :: rest2) w0 hm a ha2)
          · have hm : w ∈ pySplitWs (d :: rest2) := by rw [hsp]; simp [hw2]
            exact List.mem_cons_of_mem c (mem_pySplitWs (d :: rest2) w hm a ha)

theorem inAzB_iff {c : Char} : inAzB c = true ↔ 65 ≤ c.toNat ∧ c.toNat ≤ 122 := by
  simp [inAzB]

theorem pOK_of_lowerA {a : Char} (h : isLowerA a = true) : pOKc a = true := by
  rcases isLowerA_iff.mp h with ⟨h1, h2⟩
  have hne : a ≠ '_' := ne_of_toNat_ne (by rw [show ('_').toNat = 95 from rfl]; omega)
  have hAz : inAzB a = true := inAzB_iff.mpr ⟨by omega, by omega⟩
  simp [pOKc, hAz, hne]

theorem pOK_pyToLower {a : Char} (h : pOKc a = true) : pOKc (pyToLower a) = true := by
  by_cases hu : isUpperA a = true
  · exact pOK_of_lowerA (isLowerA_pyToLower_of_upper hu)
  · rw [pyToLower_eq_of_not_upper (Bool.eq_false_iff.mpr hu)]
    exact h

theorem specialsToSpace_all_pOK {l : List Char} (h : ∀ a ∈ l, a ≠ '_') :
    (specialsToSpace l).all pOKc = true := by
  rw [List.all_eq_true]
  intro a ha
  rcases List.mem_map.mp ha with ⟨c, hc, he⟩
  by_cases hcond : (inAzB c || isDigitA c) = true
  · rw [if_pos hcond] at he
    rw [← he]
    rcases Bool.or_eq_true_iff.mp hcond with hAz | hDg
    · have hne : c ≠ '_' := h c hc
      simp [pOKc, hAz, hne]
    · simp [pOKc, hDg]
  · rw [if_neg hcond] at he
    rw [← he]
    decide

theorem all_pOK_pyStrip {l : List Char} (h : l.all pOKc = true) :
    (pyStrip l).all pOKc = true := by
  rw [List.all_eq_true]
  intro a ha
  exact List.all_eq_true.mp h a (mem_pyStrip ha)

theorem all_pOK_collapseWs {l : List Char} (h : l.all pOKc = true) :
    (collapseWs l).all pOKc = true := by
  rw [List.all_eq_true]
  intro a ha
  rcases mem_collapseWs l a ha with h5 | h5
  · exact List.all_eq_true.mp h a h5
  · rw [h5]
    decide

theorem all_pOK_pyLower {l : List Char} (h : l.all pOKc = true) :
    (pyLower l).all pOKc = true := by
  rw [List.all_eq_true]
  intro a ha
  rcases List.mem_map.mp ha with ⟨c, hc, he⟩
  rw [← he]
  exact pOK_pyToLower (List.all_eq_true.mp h c hc)

theorem all_pOK_pyJoin {ws : List (List Char)}
    (h : ∀ w ∈ ws, w.all pOKc = true) : (pyJoin [' '] ws).all pOKc = true := by
  cases ws with
  | nil => rfl
  | cons w ws =>
    rw [pyJoin, List.all_eq_true]
    intro a ha
    rcases List.mem_append.mp ha with h1 | h1
    · exact List.all_eq_true.mp (h w (List.mem_cons_self w ws)) a h1
    · rcases List.mem_flatMap.mp h1 with ⟨x, hx, hax⟩
      rcases List.mem_append.mp hax with h2 | h2
      · rw [List.mem_singleton.mp h2]
        decide
      · exact List.all_eq_true.mp (h x (List.mem_cons_of_mem w hx)) a h2

theorem nnStage1_all_pOK (l : List Char) : (nnStage1 l).all pOKc = true := by
  have he : nnStage1 l = pyStrip (collapseWs (pyStrip (specialsToSpace
      (underscoreSplitJoin (subPair2 inAzB isDigitA (subPair2 isDigitA isLowerA
        (spaceAfterAcronyms (subPair2 lowerOrDigit isUpperA l)))))))) := rfl
  rw [he]
  apply all_pOK_pyStrip
  apply all_pOK_collapseWs
  apply all_pOK_pyStrip
  apply specialsToSpace_all_pOK
  intro a ha
  exact usj_no_underscore ha

theorem nnCaseDefault_all_pOK {l : List Char} (h : l.all pOKc = true) :
    (nnCaseDefault l).all pOKc = true := by
  rw [nnCaseDefault]
  by_cases hu : pyIsUpper l = true
  · rw [if_pos hu]
    exact all_pOK_pyLower h
  · rw [if_neg hu]
    apply all_pOK_pyJoin
    intro w hw
    rcases List.mem_map.mp hw with ⟨w0, hw0, he⟩
    have hall0 : w0.all pOKc = true := by
      rw [List.all_eq_true]
      intro a ha
      exact List.all_eq_true.mp h a (mem_pySplitWs l w0 hw0 a ha)
    by_cases ht : pyIsTitle w0 = true
    · rw [if_pos ht] at he
      rw [← he]
      exact all_pOK_pyLower hall0
    · rw [if_neg ht] at he
      rw [← he]
      exact hall0

theorem subPair2_id (p1 p2 : Char → Bool) :
    ∀ l : List Char, (∀ c ∈ l, p1 c = false) → subPair2 p1 p2 l = l
  | [], _ => rfl
  | [_], _ => rfl
  | c1 :: c2 :: rest, h => by
    rw [subPair2_cons2, if_neg (by simp [h c1 (List.mem_cons_self c1 (c2 :: rest))])]
    rw [subPair2_id p1 p2 (c2 :: rest) fun c hc => h c (List.mem_cons_of_mem c1 hc)]

theorem spaceAfterAcronyms_id :
    ∀ l : List Char, (∀ c ∈ l, isUpperA c = false) → spaceAfterAcronyms l = l
  | [], _ => rfl
  | [_], _ => rfl
  | [_, _], _ => rfl
  | c1 :: c2 :: c3 :: rest, h => by
    rw [spaceAfterAcronyms_cons3,
      if_neg (by simp [h c1 (List.mem_cons_self c1 (c2 :: c3 :: rest))])]
    rw [spaceAfterAcronyms_id (c2 :: c3 :: rest)
      fun c hc => h c (List.mem_cons_of_mem c1 hc)]

theorem usj_id {l : List Char} (h : '_' ∉ l) : underscoreSplitJoin l = l := by
  rw [underscoreSplitJoin_eq_map]
  have he : ∀ c ∈ l, (if c == '_' then ' ' else c) = c := by
    intro c hc
    have : c ≠ '_' := fun hcu => h (hcu ▸ hc)
    simp [this]
  rw [List.map_congr_left he]
  exact List.map_id' l

theorem specialsToSpace_all_space :
    ∀ l : List Char, (∀ c ∈ l, (inAzB c || isDigitA c) = false) →
      specialsToSpace l = List.replicate l.length ' '
  | [], _ => rfl
  | c :: rest, h => by
    rw [specialsToSpace, List.map_cons,
      if_neg (by simp [h c (List.mem_cons_self c rest)]), List.length_cons,
      List.replicate_succ]
    have := specialsToSpace_all_space rest fun d hd => h d (List.mem_cons_of_mem c hd)
    rw [specialsToSpace] at this
    rw [this]

theorem dropWhile_space_replicate (n : Nat) :
    List.dropWhile pyIsSpace (List.replicate n ' ') = [] := by
  induction n with
  | zero => rfl
  | succ n ih => rw [List.replicate_succ, List.dropWhile_cons_of_pos (by decide), ih]

theorem pyStrip_replicate (n : Nat) : pyStrip (List.replicate n ' ') = [] := by
  rw [pyStrip, dropWhile_space_replicate]
  rfl

/-- Claim C1, counterexample: the left square bracket lies inside the
regex class A-z, so stage 1 keeps it; the input holding only that bracket
is pure punctuation with no letters or digits, yet the output is the same
bracket, a nonempty string holding a character that is neither a letter,
nor a digit, nor the delimiter. -/
theorem c1_counterexample :
    normalize_notation "[" "default" "default" " " false = "[" ∧
    ("[" : String).toList.all (fun c => !(isAlphaA c || isDigitA c)) = true ∧
    ( normalize_notation "[" "default" "default" " " false).toList.all
      (fun c => isAlphaA c || isDigitA c || c == ' ') = false ∧
    normalize_notation "[" "default" "default" " " false ≠ "" := by decide

/- Nil computations of the case, delimiter and camel stages. -/

theorem pyLower_nil : pyLower [] = [] := rfl

theorem pyUpper_nil : pyUpper [] = [] := rfl

theorem pyTitle_nil : pyTitle [] = [] := rfl

theorem pyCapitalize_nil : pyCapitalize [] = [] := rfl

theorem nnCaseDefault_nil : nnCaseDefault [] = [] := rfl

theorem subSpace_nil (d : List Char) : subSpace d [] = [] := rfl

theorem lowerFirst_nil : lowerFirst [] = [] := rfl

theorem nnCase_nil (cas : String) : nnCase cas [] = [] := by
  simp only [nnCase, nnCaseDefault_nil, pyLower_nil, pyUpper_nil, pyTitle_nil,
    pyCapitalize_nil, ite_self]

theorem normalizeNotationL_nil_of_stage1 {l : List Char} (h : nnStage1 l = [])
    (nota cas0 : String) (delim0 : List Char) (pc : Bool) :
    normalizeNotationL l nota cas0 delim0 pc = [] := by
  simp only [normalizeNotationL, h, nnCase_nil, subSpace_nil, lowerFirst_nil,
    ite_self]

/- Preservation of the output character class by every case transform. -/

theorem azNotUnderscore_of_lower {x : Char} (h : isLowerA x = true) :
    inAzB x = true ∧ x ≠ '_' := by
  rcases isLowerA_iff.mp h with ⟨h1, h2⟩
  exact ⟨inAzB_iff.mpr ⟨by omega, by omega⟩,
    ne_of_toNat_ne (by rw [show ('_').toNat = 95 from rfl]; omega)⟩

theorem isUpperA_pyToUpper_of_lower {a : Char} (h : isLowerA a = true) :
    isUpperA (pyToUpper a) = true := by
  rcases isLowerA_iff.mp h with ⟨h1, h2⟩
  rw [isUpperA_iff, pyToUpper_toNat_of_lower h]
  omega

theorem pOK_of_upperA {a : Char} (h : isUpperA a = true) : pOKc a = true := by
  rcases isUpperA_iff.mp h with ⟨h1, h2⟩
  have hne : a ≠ '_' := ne_of_toNat_ne (by rw [show ('_').toNat = 95 from rfl]; omega)
  have hAz : inAzB a = true := inAzB_iff.mpr ⟨by omega, by omega⟩
  simp [pOKc, hAz, hne]

theorem pOK_pyToUpper {a : Char} (h : pOKc a = true) : pOKc (pyToUpper a) = true := by
  by_cases hl : isLowerA a = true
  · exact pOK_of_upperA (isUpperA_pyToUpper_of_lower hl)
  · rw [pyToUpper_eq_of_not_lower (Bool.eq_false_iff.mpr hl)]
    exact h

theorem all_pOK_pyUpper {l : List Char} (h : l.all pOKc = true) :
    (pyUpper l).all pOKc = true := by
  rw [List.all_eq_true]
  intro a ha
  rcases List.mem_map.mp ha with ⟨c, hc, he⟩
  rw [← he]
  exact pOK_pyToUpper (List.all_eq_true.mp h c hc)

theorem all_pOK_pyTitleGo :
    ∀ (b : Bool) (l : List Char), l.all pOKc = true →
      (pyTitleGo b l).all pOKc = true
  | _, [], _ => rfl
  | b, c :: rest, h => by
    have h2 := h
    rw [List.all_cons, Bool.and_eq_true] at h2
    rcases h2 with ⟨hc, hrest⟩
    rw [pyTitleGo]
    by_cases hA : isAlphaA c = true
    · rw [if_pos hA, List.all_cons, Bool.and_eq_true]
      refine ⟨?_, all_pOK_pyTitleGo true rest hrest⟩
      by_cases hb : b = true
      · rw [if_pos hb]
        exact pOK_pyToLower hc
      · rw [if_neg hb]
        exact pOK_pyToUpper hc
    · rw [if_neg hA, List.all_cons, Bool.and_eq_true]
      exact ⟨hc, all_pOK_pyTitleGo false rest hrest⟩

theorem all_pOK_pyTitle {l : List Char} (h : l.all pOKc = true) :
    (pyTitle l).all pOKc = true := all_pOK_pyTitleGo false l h

theorem all_pOK_pyCapitalize {l : List Char} (h : l.all pOKc = true) :
    (pyCapitalize l).all pOKc = true := by
  cases l with
  | nil => rfl
  | cons c rest =>
    have h2 := h
    rw [List.all_cons, Bool.and_eq_true] at h2
    rcases h2 with ⟨hc, hrest⟩
    rw [pyCapitalize, List.all_cons, Bool.and_eq_true]
    exact ⟨pOK_pyToUpper hc, all_pOK_pyLower hrest⟩

/- A step of the case block: an if that either applies a class-preserving
   transform or keeps the string. -/
theorem all_pOK_caseIte {p : Prop} [Decidable p] {f : List Char → List Char}
    (hf : ∀ y : List Char, y.all pOKc = true → (f y).all pOKc = true)
    {x : List Char} (hx : x.all pOKc = true) :
    (if p then f x else x).all pOKc = true := by
  split
  · exact hf x hx
  · exact hx

theorem all_pOK_nnCase {cas : String} {l : List Char} (h : l.all pOKc = true) :
    (nnCase cas l).all pOKc = true := by
  simp only [nnCase]
  apply all_pOK_caseIte fun y hy => all_pOK_pyCapitalize hy
  apply all_pOK_caseIte fun y hy => all_pOK_pyTitle hy
  apply all_pOK_caseIte fun y hy => all_pOK_pyUpper hy
  apply all_pOK_caseIte fun y hy => all_pOK_pyLower hy
  apply all_pOK_caseIte fun y hy => nnCaseDefault_all_pOK hy
  exact h

theorem pOKc_cases {a : Char} (h : pOKc a = true) :
    (inAzB a = true ∧ a ≠ '_') ∨ isDigitA a = true ∨ a = ' ' := by
  by_cases hsp : a = ' '
  · exact .inr (.inr hsp)
  by_cases hdg : isDigitA a = true
  · exact .inr (.inl hdg)
  left
  have hdg2 : isDigitA a = false := Bool.eq_false_iff.mpr hdg
  have hsp2 : (a == ' ') = false := by simp [hsp]
  rw [pOKc, hdg2, hsp2] at h
  simp only [Bool.or_false] at h
  rw [Bool.and_eq_true] at h
  rcases h with ⟨hA, hN⟩
  refine ⟨hA, fun he => ?_⟩
  rw [he] at hN
  simp at hN

theorem mem_subSpace {delim l : List Char} {a : Char} (ha : a ∈ subSpace delim l) :
    (a ∈ l ∧ a ≠ ' ') ∨ a ∈ delim := by
  rcases List.mem_flatMap.mp ha with ⟨c, hc, hac⟩
  by_cases hsp : (c == ' ') = true
  · rw [if_pos hsp] at hac
    exact .inr hac
  · rw [if_neg hsp] at hac
    rcases List.mem_singleton.mp hac with rfl
    refine .inl ⟨hc, ?_⟩
    simpa using hsp

theorem mem_lowerFirst {l : List Char} {a : Char} (ha : a ∈ lowerFirst l) :
    a ∈ l ∨ ∃ b ∈ l, a = pyToLower b := by
  cases l with
  | nil => simp [lowerFirst] at ha
  | cons c rest =>
    have e : lowerFirst (c :: rest) = pyToLower c :: rest := rfl
    rw [e] at ha
    rcases List.mem_cons.mp ha with he | h2
    · exact .inr ⟨c, List.mem_cons_self c rest, he⟩
    · exact .inl (List.mem_cons_of_mem c h2)

set_option maxHeartbeats 1000000 in
theorem mem_normalizeNotationL {l : List Char} {nota cas0 : String}
    {delim0 : List Char} {pc : Bool} {a : Char}
    (ha : a ∈ normalizeNotationL l nota cas0 delim0 pc) :
    (inAzB a = true ∧ a ≠ '_') ∨ isDigitA a = true ∨
      a ∈ presetDelim nota delim0 := by
  have hY : (if pc then nnStage1 l
      else nnCase (presetCase nota cas0) (nnStage1 l)).all pOKc = true := by
    split
    · exact nnStage1_all_pOK l
    · exact all_pOK_nnCase (nnStage1_all_pOK l)
  have hZ : ∀ b : Char,
      b ∈ (if presetDelim nota delim0 ≠ [' '] then
          subSpace (presetDelim nota delim0)
            (if pc then nnStage1 l else nnCase (presetCase nota cas0) (nnStage1 l))
        else
          (if pc then nnStage1 l else nnCase (presetCase nota cas0) (nnStage1 l))) →
      (inAzB b = true ∧ b ≠ '_') ∨ isDigitA b = true ∨
        b ∈ presetDelim nota delim0 := by
    intro b hb
    by_cases hd : presetDelim nota delim0 ≠ [' ']
    · rw [if_pos hd] at hb
      rcases mem_subSpace hb with ⟨hbY, hbs⟩ | hbD
      · rcases pOKc_cases (List.all_eq_true.mp hY b hbY) with h2 | h2 | h2
        · exact .inl h2
        · exact .inr (.inl h2)
        · exact absurd h2 hbs
      · exact .inr (.inr hbD)
    · rw [if_neg hd] at hb
      have hde : presetDelim nota delim0 = [' '] := not_not.mp hd
      rcases pOKc_cases (List.all_eq_true.mp hY b hb) with h2 | h2 | h2
      · exact .inl h2
      · exact .inr (.inl h2)
      · right
        right
        rw [hde, h2]
        exact List.mem_singleton.mpr rfl
  simp only [normalizeNotationL] at ha
  by_cases hcam : nota = "camel"
  · rw [if_pos hcam] at ha
    rcases mem_lowerFirst ha with h1 | ⟨b, hb, he⟩
    · exact hZ a h1
    · subst he
      by_cases hub : isUpperA b = true
      · exact .inl (azNotUnderscore_of_lower (isLowerA_pyToLower_of_upper hub))
      · rw [pyToLower_eq_of_not_upper (Bool.eq_false_iff.mpr hub)]
        exact hZ b hb
  · rw [if_neg hcam] at ha
    exact hZ a ha

set_option maxHeartbeats 1000000 in
/-- Claim C1, amended: stage 1 substitutes every character outside the
regex class of A-z and digits by a boundary, and that class also holds the
six ASCII characters between Z and a; consequently, under every
configuration, each character of the output of normalize_notation lies in
the class A-z without the underscore, is a digit, or belongs to the
effective preset-resolved delimiter; and every input string none of whose
characters lies in the class of A-z and digits collapses to the empty
output under every configuration.  The collapse condition is sufficient
and not necessary: the pure punctuation underscore string also collapses
to the empty output, while the left bracket string does not. -/
theorem c1_amended_thm :
    (∀ (s nota cas delim : String) (pc : Bool),
      (∀ a ∈ ( normalize_notation s nota cas delim pc).toList,
          (inAzB a = true ∧ a ≠ '_') ∨ isDigitA a = true ∨
            a ∈ presetDelim nota delim.toList)
      ∧ (s.toList.all (fun c => !(inAzB c || isDigitA c)) = true →
          normalize_notation s nota cas delim pc = ""))
    ∧ normalize_notation "_" "default" "default" " " false = ""
    ∧ normalize_notation "[" "default" "default" " " false = "[" := by
  refine ⟨?_, by decide, by decide⟩
  intro s nota cas delim pc
  constructor
  · intro a ha
    exact mem_normalizeNotationL ha
  · intro h
    have hall : ∀ c ∈ s.toList, (inAzB c || isDigitA c) = false := by
      intro c hc
      have := List.all_eq_true.mp h c hc
      simpa using this
    have hAz : ∀ c ∈ s.toList, inAzB c = false :=
      fun c hc => (Bool.or_eq_false_iff.mp (hall c hc)).1
    have hdig : ∀ c ∈ s.toList, isDigitA c = false :=
      fun c hc => (Bool.or_eq_false_iff.mp (hall c hc)).2
    have hlow : ∀ c ∈ s.toList, isLowerA c = false := by
      intro c hc
      apply Bool.eq_false_iff.mpr
      intro hlt
      rcases isLowerA_iff.mp hlt with ⟨a1, a2⟩
      have hAzT : inAzB c = true := inAzB_iff.mpr ⟨by omega, by omega⟩
      have hcontra := hAz c hc
      rw [hAzT] at hcontra
      exact absurd hcontra (by decide)
    have hup : ∀ c ∈ s.toList, isUpperA c = false := by
      intro c hc
      apply Bool.eq_false_iff.mpr
      intro hlt
      rcases isUpperA_iff.mp hlt with ⟨a1, a2⟩
      have hAzT : inAzB c = true := inAzB_iff.mpr ⟨by omega, by omega⟩
      have hcontra := hAz c hc
      rw [hAzT] at hcontra
      exact absurd hcontra (by decide)
    have hlod : ∀ c ∈ s.toList, lowerOrDigit c = false := by
      intro c hc
      rw [lowerOrDigit, hlow c hc, hdig c hc]
      rfl
    have hund : '_' ∉ s.toList := by
      intro hm
      exact absurd (hall '_' hm) (by decide)
    have e6 : nnStage1 s.toList = [] := by
      have he : nnStage1 s.toList = pyStrip (collapseWs (pyStrip (specialsToSpace
          (underscoreSplitJoin (subPair2 inAzB isDigitA (subPair2 isDigitA isLowerA
            (spaceAfterAcronyms (subPair2 lowerOrDigit isUpperA s.toList)))))))) := rfl
      rw [he, subPair2_id lowerOrDigit isUpperA s.toList hlod,
        spaceAfterAcronyms_id s.toList hup,
        subPair2_id isDigitA isLowerA s.toList hdig,
        subPair2_id inAzB isDigitA s.toList hAz, usj_id hund,
        specialsToSpace_all_space s.toList hall, pyStrip_replicate]
      rfl
    show String.mk (normalizeNotationL s.toList nota cas delim.toList pc) = ""
    rw [normalizeNotationL_nil_of_stage1 e6 nota cas delim.toList pc]

/-- Claim C1, witness: the class invariant applied to the underscore of
the snake output of a two word input, and the collapse of a pure
punctuation input outside the class A-z under the camel preset with an
unrecognized case value and a hyphen delimiter. -/
theorem c1_witness :
    ((inAzB '_' = true ∧ '_' ≠ '_') ∨ isDigitA '_' = true ∨
        '_' ∈ presetDelim "snake" " ".toList)
    ∧ normalize_notation "!!" "camel" "x" "-" false = "" :=
  ⟨(c1_amended_thm.1 "a b" "snake" "default" " " false).1 '_' (by decide),
    (c1_amended_thm.1 "!!" "camel" "x" "-" false).2 (by decide)⟩

